import Mathlib

set_option maxHeartbeats 1000000

/-! Verification development for the socketio-signaler repository.

The client-side orchestrator (SignallerPeerConnection) and the server-side
signalling relay are embedded shallowly: the mutable peer table and client
list become explicit state, the callback-style negotiation steps become
effect lists, and JavaScript truthiness is modelled where the source relies
on it (the suppress argument and the nested ICE payload guard). -/

/-- JavaScript values flowing into truthiness tests in the embedded code:
the suppress argument of addPeer and regenStream is undefined, an array
index, a boolean, or the result of a logical and. -/
inductive JVal where
  | undef : JVal
  | num : Nat → JVal
  | bool : Bool → JVal
deriving DecidableEq

/-- Truthiness of a JavaScript value: undefined is falsy, a number is truthy
unless it is zero, a boolean is itself. -/
def JVal.truthy : JVal → Bool
  | .undef => false
  | .num n => n != 0
  | .bool b => b

/-- JavaScript logical and: the right operand when the left is truthy,
otherwise the left operand (regenStream computes
suppress && peer.connection.getRemoteStreams().length). -/
def jand (a b : JVal) : JVal := if a.truthy then b else a

/-- Handlers captured by bindConnectionEvents on an RTCPeerConnection handle:
the onicecandidate and onaddstream closures capture peer.id and the suppress
argument. -/
structure Handlers where
  peerId : String
  suppress : Bool
deriving DecidableEq

/-- State of one RTCPeerConnection handle: whether its events are bound, the
remote streams visible through getRemoteStreams, and the local streams
attached with addStream. -/
structure RTCConn where
  handlers : Option Handlers
  remoteStreams : Nat
  localStreams : List Nat
deriving DecidableEq

/-- A freshly constructed handle: new this.PeerConnection(this.iceServers). -/
def newPeerConnection : RTCConn := ⟨none, 0, []⟩

/-- One entry of the peer table: the record with fields connection and id that
addPeer pushes onto this.peerConnections. -/
structure Peer where
  id : String
  connection : RTCConn
deriving DecidableEq

/-- Client orchestrator state: the peerConnections array and the optional
localStream reference. -/
structure Client where
  peerConnections : List Peer
  localStream : Option Nat
deriving DecidableEq

/-- Observable side effects of the client: events emitted to application code
through the EventEmitter and messages emitted on the socket. -/
inductive Eff where
  | remoteStreamAdded (stream : Nat) (peerId : String)
  | peerDisconnected (id : String)
  | remoteStreamRemovedEv (id : String)
  | peerConnectedEv (id : String)
  | localStreamRemovedEv
  | sockOffer (target : String)
  | sockAnswer (target : String)
  | sockPeerConnected (id : String)
  | sockStreamRemoved (id : String)
  | setRemoteDescription (peerId : String) (desc : Nat)
  | setLocalDesc (peerId : String)
  | addStreamEff (stream : Nat) (peerId : String)
  | addIceCandidate (peerId : String) (candidate : String) (line : Nat)
  | closeConnection (id : String)
deriving DecidableEq

/-- Last-match scan shared by getPeer and findSocket: forEach over the array
reassigning the accumulator on every match, so the last matching element
wins and absence is the initial value. -/
def lastHit {α : Type} (p : α → Bool) (l : List α) : Option α :=
  l.foldl (fun acc x => if p x then some x else acc) none

/-- hasPeer: forEach over peerConnections setting foundPeer to true on an id
match. -/
def hasPeer (id : String) (st : Client) : Bool :=
  st.peerConnections.foldl (fun found peer => if peer.id == id then true else found) false

/-- bindConnectionEvents: installs onicecandidate, onaddstream and
ondatachannel on the entry's connection; the closures capture peer.id and the
truthiness of the suppress argument, and the function returns the peer. -/
def bindConnectionEvents (peer : Peer) (suppress : JVal) : Peer :=
  { peer with connection := { peer.connection with handlers := some ⟨peer.id, suppress.truthy⟩ } }

/-- Firing of the onaddstream handler installed by bindConnectionEvents:
remoteStreamAdded is emitted only when the captured suppress value is falsy,
otherwise the signal is only logged. -/
def fireAddStream (stream : Nat) (peer : Peer) : List Eff :=
  match peer.connection.handlers with
  | none => []
  | some h => if h.suppress then [] else [Eff.remoteStreamAdded stream h.peerId]

/-- createOffer with its continuation: the offer callback evaluates the
sendOffer argument (emitting the offer on the socket) and sets the local
description. -/
def createOffer (peer : Peer) : List Eff :=
  [Eff.sockOffer peer.id, Eff.setLocalDesc peer.id]

/-- addStreamToPeer: peer.connection.addStream(stream) followed by the
renegotiation via createOffer. -/
def addStreamToPeer (stream : Nat) (peer : Peer) : Peer × List Eff :=
  let peer1 : Peer :=
    { peer with connection :=
        { peer.connection with localStreams := peer.connection.localStreams ++ [stream] } }
  (peer1, Eff.addStreamEff stream peer.id :: createOffer peer1)

/-- addPeer: when the id is not yet present, create a fresh entry, bind its
connection events with the given suppress argument, push it onto
peerConnections and, when a localStream exists, attach it to the new handle
(which sends an offer); the created entry is returned, or none when the id
was already present (the source returns undefined then). -/
def addPeer (id : String) (suppress : JVal) (st : Client) :
    Client × Option Peer × List Eff :=
  if hasPeer id st then (st, none, [])
  else
    let peer1 := bindConnectionEvents ⟨id, newPeerConnection⟩ suppress
    match st.localStream with
    | none => ({ st with peerConnections := st.peerConnections ++ [peer1] }, some peer1, [])
    | some s =>
      let r := addStreamToPeer s peer1
      ({ st with peerConnections := st.peerConnections ++ [r.1] }, some r.1, r.2)

/-- The entry addPeer constructs for an absent id, as a function of the
current localStream (used to state characterisation lemmas). -/
def mkPeer (ls : Option Nat) (id : String) (suppress : JVal) : Peer :=
  match ls with
  | none => bindConnectionEvents ⟨id, newPeerConnection⟩ suppress
  | some s => (addStreamToPeer s (bindConnectionEvents ⟨id, newPeerConnection⟩ suppress)).1

/-- The effects addPeer produces for an absent id. -/
def mkPeerEffs (ls : Option Nat) (id : String) : List Eff :=
  match ls with
  | none => []
  | some s => [Eff.addStreamEff s id, Eff.sockOffer id, Eff.setLocalDesc id]

/-- getPeer: scan peerConnections for the id (last match wins); when absent,
fall through to addPeer, which creates and returns the new entry; the none
fallback is unreachable because an unmatched scan means hasPeer is false. -/
def getPeer (id : String) (st : Client) : Peer × Client × List Eff :=
  match lastHit (fun peer => peer.id == id) st.peerConnections with
  | some p => (p, st, [])
  | none =>
    let r := addPeer id .undef st
    match r.2.1 with
    | some p => (p, r.1, r.2.2)
    | none => (⟨id, newPeerConnection⟩, r.1, r.2.2)

/-- One step of peers.forEach(this.addPeer.bind(this)): forEach passes the
element together with its array index, and the index lands in addPeer's
suppress parameter. -/
def genStep (acc : Client × List Eff) (ip : Nat × String) : Client × List Eff :=
  let r := addPeer ip.2 (.num ip.1) acc.1
  (r.1, acc.2 ++ r.2.2)

/-- generateConnections: peers.forEach(this.addPeer.bind(this)) over the
received list. -/
def generateConnections (peers : List String) (st : Client) : Client × List Eff :=
  peers.enum.foldl genStep (st, [])

/-- createAnswer: getPeer(data.sender), set the remote description from the
received offer, create an answer, send it (the sendAnswer argument of
setLocalDescription is evaluated first) and set the local description. -/
def createAnswer (sender : String) (offer : Nat) (st : Client) : Client × List Eff :=
  let r := getPeer sender st
  (r.2.1, r.2.2 ++
    [Eff.setRemoteDescription r.1.id offer, Eff.sockAnswer r.1.id, Eff.setLocalDesc r.1.id])

/-- handleAnswer: getPeer(data.sender), set the remote description from the
received answer; the success continuation emits the peerconnected application
event and the peerconnected socket message. -/
def handleAnswer (sender : String) (answer : Nat) (st : Client) : Client × List Eff :=
  let r := getPeer sender st
  (r.2.1, r.2.2 ++
    [Eff.setRemoteDescription r.1.id answer, Eff.peerConnectedEv r.1.id,
      Eff.sockPeerConnected r.1.id])

/-- Second nesting level of the received ICE payload, data.candidate.candidate:
it holds the candidate string and sdpMLineIndex. -/
structure IceInner where
  candidate : String
  sdpMLineIndex : Nat
deriving DecidableEq

/-- First nesting level of the received ICE payload, data.candidate. -/
structure IceOuter where
  candidate : Option IceInner
deriving DecidableEq

/-- receiveIceCandidate: guarded by data, data.candidate,
data.candidate.candidate and data.candidate.candidate.candidate all being
truthy (an empty candidate string is falsy); when the guard passes,
getPeer(data.sender) and addIceCandidate on its connection. -/
def receiveIceCandidate (sender : String) (cand : Option IceOuter) (st : Client) :
    Client × List Eff :=
  match cand with
  | none => (st, [])
  | some outer =>
    match outer.candidate with
    | none => (st, [])
    | some inner =>
      if inner.candidate = "" then (st, [])
      else
        let r := getPeer sender st
        (r.2.1, r.2.2 ++ [Eff.addIceCandidate r.1.id inner.candidate inner.sdpMLineIndex])

/-- One pass of Array.prototype.forEach with a conditional splice(index, 1) in
the callback: the iteration count is fixed at the array's initial length,
indices at or past the live length are skipped, and a removal shifts later
elements left so the element directly after a removed one is never visited. -/
def spliceGo {α : Type} (m : α → Bool) : Nat → List α → Nat → List α
  | 0, arr, _ => arr
  | fuel + 1, arr, k =>
    match arr.get? k with
    | none => spliceGo m fuel arr (k + 1)
    | some x =>
      if m x then spliceGo m fuel (arr.eraseIdx k) (k + 1)
      else spliceGo m fuel arr (k + 1)

/-- forEach with splice over a whole array: the removal loops of
disconnectConnection and removeUser. -/
def spliceOut {α : Type} (m : α → Bool) (arr : List α) : List α :=
  spliceGo m arr.length arr 0

/-- disconnectConnection: getPeer(id) (creating the entry when absent, which
may attach the local stream and send an offer), close the connection, emit
peerDisconnected and remoteStreamRemoved, then splice the entry out of
peerConnections inside a forEach. -/
def disconnectConnection (id : String) (st : Client) : Client × List Eff :=
  let r := getPeer id st
  ({ r.2.1 with
      peerConnections := spliceOut (fun peer => peer.id == id) r.2.1.peerConnections },
    r.2.2 ++ [Eff.closeConnection r.1.id, Eff.peerDisconnected id, Eff.remoteStreamRemovedEv id])

/-- regenStream on one entry: recompute suppress as
suppress && getRemoteStreams().length on the old handle, replace the
connection wholesale by a freshly constructed one, re-bind the connection
events on it, and re-attach the local stream (sending an offer) when one
exists. -/
def regenPeer (localStream : Option Nat) (peer : Peer) (suppress : JVal) : Peer × List Eff :=
  let s := jand suppress (.num peer.connection.remoteStreams)
  let peer2 := bindConnectionEvents { peer with connection := newPeerConnection } s
  match localStream with
  | none => (peer2, [])
  | some st => addStreamToPeer st peer2

/-- regenStream acts through an alias into the peerConnections array, so the
entry at the aliased position is updated in place and the array keeps its
shape. -/
def regenStreamTable (ls : Option Nat) (sup : JVal) (tbl : List Peer) (j : Nat) :
    List Peer × List Eff :=
  match tbl.get? j with
  | none => (tbl, [])
  | some p =>
    let r := regenPeer ls p sup
    (tbl.set j r.1, r.2)

/-- Loop body of removeLocalStream: emit streamremoved on the socket for the
entry, then regenStream(peer, true); this.localStream is already cleared when
the loop runs, so regenStream re-attaches nothing. -/
def removeLSStep (acc : List Peer × List Eff) (peer : Peer) : List Peer × List Eff :=
  let g := regenPeer none peer (.bool true)
  (acc.1 ++ [g.1], acc.2 ++ [Eff.sockStreamRemoved peer.id] ++ g.2)

/-- removeLocalStream: stop and clear this.localStream, run the per-entry loop
over peerConnections, then emit localStreamRemoved. -/
def removeLocalStream (st : Client) : Client × List Eff :=
  let r := st.peerConnections.foldl removeLSStep ([], [])
  ({ peerConnections := r.1, localStream := none }, r.2 ++ [Eff.localStreamRemovedEv])

/-- A client registered with the relay, identified by its socket id. -/
structure RClient where
  id : String
deriving DecidableEq

/-- findSocket: forEach over clients reassigning on every id match, so the
last match wins; not-found is the initial false, modelled as none. -/
def findSocket (id : String) (clients : List RClient) : Option RClient :=
  lastHit (fun c => c.id == id) clients

/-- getUserIds: forEach over clients pushing every id different from the
caller's, preserving join order. -/
def getUserIds (currentId : String) (clients : List RClient) : List String :=
  clients.foldl (fun ids c => if c.id ≠ currentId then ids ++ [c.id] else ids) []

/-- removeUser: forEach over clients with splice(index, 1) on an id match. -/
def removeUser (id : String) (clients : List RClient) : List RClient :=
  spliceOut (fun c => c.id == id) clients

/-- A message the relay delivers to a recipient channel. -/
inductive Delivery where
  | offer (recipient sender : String) (offer : Nat)
  | answer (recipient sender : String) (answer : Nat)
  | ice (recipient sender : String) (candidate : Nat)
  | peerconnected (recipient sender : String)
  | streamremoved (recipient sender : String)
  | listMsg (recipient : String) (ids : List String)
deriving DecidableEq

/-- Relay handler for list: reply to the sender with getUserIds. -/
def onList (senderId : String) (clients : List RClient) : List RClient × List Delivery :=
  (clients, [Delivery.listMsg senderId (getUserIds senderId clients)])

/-- Relay handler for offer: forward to the resolved target, otherwise drop
with only a log. -/
def onOffer (senderId target : String) (offer : Nat) (clients : List RClient) :
    List RClient × List Delivery :=
  match findSocket target clients with
  | some r => (clients, [Delivery.offer r.id senderId offer])
  | none => (clients, [])

/-- Relay handler for answer: same forwarding pattern as offer. -/
def onAnswer (senderId target : String) (answer : Nat) (clients : List RClient) :
    List RClient × List Delivery :=
  match findSocket target clients with
  | some r => (clients, [Delivery.answer r.id senderId answer])
  | none => (clients, [])

/-- Relay handler for icecandidate: forward the wrapped candidate to the
resolved target, otherwise drop with only a log. -/
def onIce (senderId target : String) (candidate : Nat) (clients : List RClient) :
    List RClient × List Delivery :=
  match findSocket target clients with
  | some r => (clients, [Delivery.ice r.id senderId candidate])
  | none => (clients, [])

/-- Relay handler for peerconnected: the payload id names the target. -/
def onPeerconnected (senderId pid : String) (clients : List RClient) :
    List RClient × List Delivery :=
  match findSocket pid clients with
  | some r => (clients, [Delivery.peerconnected r.id senderId])
  | none => (clients, [])

/-- Relay handler for streamremoved: forward the sender id to the target. -/
def onStreamremoved (senderId target : String) (clients : List RClient) :
    List RClient × List Delivery :=
  match findSocket target clients with
  | some r => (clients, [Delivery.streamremoved r.id senderId])
  | none => (clients, [])

/-- Relay connection handler: this.clients.push(socket); the initialized
acknowledgment and the newconnection broadcast change no registry state. -/
def onConnection (socket : RClient) (clients : List RClient) : List RClient :=
  clients ++ [socket]

/-- Relay close handler: removeUser then the disconnect broadcast. -/
def onDisconnect (senderId : String) (clients : List RClient) : List RClient :=
  removeUser senderId clients

/-- A client that has just started: empty peer table, no local stream. -/
def initClient : Client := ⟨[], none⟩

/-- A peer entry whose old handle reports one remote stream and carries an
unsuppressed binding. -/
def cPeerB : Peer := ⟨"b", ⟨some ⟨"b", false⟩, 1, []⟩⟩

/-- A client broadcasting a local stream to the single peer cPeerB. -/
def cSt : Client := ⟨[cPeerB], some 5⟩

/-- A client with empty table but an active local stream (used to witness the
create-then-disconnect path). -/
def cSt2 : Client := ⟨[], some 1⟩

/-- Folding the reassign-on-match step is a last-match search: the result is
the last matching element of the list, or the initial accumulator. -/
theorem foldl_assign_last {α : Type} (p : α → Bool) :
    ∀ (l : List α) (acc : Option α),
      l.foldl (fun a x => if p x then some x else a) acc =
        (l.reverse.find? p).or acc := by
  intro l
  induction l with
  | nil => intro acc; simp
  | cons a l ih =>
    intro acc
    simp only [List.foldl_cons, List.reverse_cons, List.find?_append]
    rw [ih]
    cases h : l.reverse.find? p with
    | some y => simp [h, Option.or]
    | none => cases hp : p a <;> simp [h, hp, Option.or, List.find?]

/-- lastHit is find? on the reversed list. -/
theorem lastHit_eq {α : Type} (p : α → Bool) (l : List α) :
    lastHit p l = l.reverse.find? p := by
  unfold lastHit
  rw [foldl_assign_last]
  cases l.reverse.find? p <;> simp [Option.or]

/-- lastHit misses exactly when no element matches. -/
theorem lastHit_eq_none_iff {α : Type} (p : α → Bool) (l : List α) :
    lastHit p l = none ↔ ∀ x ∈ l, p x = false := by
  rw [lastHit_eq, List.find?_eq_none]
  constructor
  · intro h x hx
    have := h x (List.mem_reverse.mpr hx)
    simpa using this
  · intro h x hx
    simp [h x (List.mem_reverse.mp hx)]

/-- A lastHit result is a matching member of the list. -/
theorem lastHit_some {α : Type} (p : α → Bool) (l : List α) (x : α)
    (h : lastHit p l = some x) : x ∈ l ∧ p x = true := by
  rw [lastHit_eq] at h
  exact ⟨List.mem_reverse.mp (List.mem_of_find?_eq_some h), List.find?_some h⟩

/-- Folding the set-true-on-match step computes any. -/
theorem foldl_true_any {α : Type} (q : α → Bool) :
    ∀ (l : List α) (acc : Bool),
      l.foldl (fun f x => if q x then true else f) acc = (acc || l.any q) := by
  intro l
  induction l with
  | nil => intro acc; simp
  | cons a l ih =>
    intro acc
    simp only [List.foldl_cons, List.any_cons]
    rw [ih]
    cases h : q a <;> cases acc <;> simp [h]

/-- hasPeer is an any-scan over the table. -/
theorem hasPeer_eq_any (id : String) (st : Client) :
    hasPeer id st = st.peerConnections.any (fun peer => peer.id == id) := by
  unfold hasPeer
  simpa using foldl_true_any (fun peer : Peer => peer.id == id) st.peerConnections false

/-- hasPeer holds exactly when some entry carries the id. -/
theorem hasPeer_true_iff (id : String) (st : Client) :
    hasPeer id st = true ↔ ∃ p ∈ st.peerConnections, p.id = id := by
  rw [hasPeer_eq_any, List.any_eq_true]
  simp

/-- hasPeer fails exactly when no entry carries the id. -/
theorem hasPeer_false_iff (id : String) (st : Client) :
    hasPeer id st = false ↔ ∀ p ∈ st.peerConnections, p.id ≠ id := by
  rw [← Bool.not_eq_true, hasPeer_true_iff]
  push_neg
  rfl

/-- The getPeer scan misses exactly when hasPeer fails. -/
theorem lastHit_peer_none_iff (id : String) (st : Client) :
    lastHit (fun peer => peer.id == id) st.peerConnections = none ↔ hasPeer id st = false := by
  rw [lastHit_eq_none_iff, hasPeer_false_iff]
  constructor
  · intro h p hp
    simpa using h p hp
  · intro h p hp
    simpa using h p hp

/-- The entry addPeer builds keeps the requested id. -/
theorem mkPeer_id (ls : Option Nat) (id : String) (sup : JVal) : (mkPeer ls id sup).id = id := by
  cases ls <;> rfl

/-- The entry addPeer builds is bound with the id and the truthiness of the
suppress argument. -/
theorem mkPeer_handlers (ls : Option Nat) (id : String) (sup : JVal) :
    (mkPeer ls id sup).connection.handlers = some ⟨id, sup.truthy⟩ := by
  cases ls <;> rfl

/-- addPeer is a no-op when the id is present. -/
theorem addPeer_present {id : String} {st : Client} (sup : JVal) (h : hasPeer id st = true) :
    addPeer id sup st = (st, none, []) := by
  simp [addPeer, h]

/-- addPeer on an absent id appends the constructed entry and produces the
stream-attachment effects. -/
theorem addPeer_absent {id : String} {st : Client} (sup : JVal) (h : hasPeer id st = false) :
    addPeer id sup st =
      ({ st with peerConnections := st.peerConnections ++ [mkPeer st.localStream id sup] },
        some (mkPeer st.localStream id sup), mkPeerEffs st.localStream id) := by
  cases hls : st.localStream <;>
    simp [addPeer, h, hls, mkPeer, mkPeerEffs, addStreamToPeer, createOffer, bindConnectionEvents]

/-- getPeer returns the last matching entry and changes nothing when the scan
hits. -/
theorem getPeer_found {id : String} {st : Client} {p : Peer}
    (h : lastHit (fun peer => peer.id == id) st.peerConnections = some p) :
    getPeer id st = (p, st, []) := by
  simp [getPeer, h]

/-- getPeer falls through to addPeer when the scan misses. -/
theorem getPeer_created {id : String} {st : Client}
    (h : lastHit (fun peer => peer.id == id) st.peerConnections = none) :
    getPeer id st =
      (mkPeer st.localStream id .undef,
        { st with peerConnections := st.peerConnections ++ [mkPeer st.localStream id .undef] },
        mkPeerEffs st.localStream id) := by
  have hf : hasPeer id st = false := (lastHit_peer_none_iff id st).mp h
  simp [getPeer, h, addPeer_absent JVal.undef hf]

/-- The entry getPeer returns carries the requested id. -/
theorem getPeer_id (id : String) (st : Client) : (getPeer id st).1.id = id := by
  cases h : lastHit (fun peer => peer.id == id) st.peerConnections with
  | some p =>
    have hp := lastHit_some _ _ _ h
    have hpid : p.id = id := by simpa using hp.2
    simp [getPeer_found h, hpid]
  | none => simp [getPeer_created h, mkPeer_id]

/-- The state after getPeer is either unchanged or extended by the fresh
entry. -/
theorem getPeer_state (id : String) (st : Client) :
    (getPeer id st).2.1 = st ∨
      (hasPeer id st = false ∧
        (getPeer id st).2.1 =
          { st with peerConnections := st.peerConnections ++ [mkPeer st.localStream id .undef] }) := by
  cases h : lastHit (fun peer => peer.id == id) st.peerConnections with
  | some p =>
    left
    simp [getPeer_found h]
  | none =>
    right
    exact ⟨(lastHit_peer_none_iff id st).mp h, by simp [getPeer_created h]⟩

/-- After getPeer the id is always present in the table. -/
theorem hasPeer_getPeer (id : String) (st : Client) :
    hasPeer id (getPeer id st).2.1 = true := by
  cases h : lastHit (fun peer => peer.id == id) st.peerConnections with
  | some p =>
    rw [getPeer_found h]
    have hp := lastHit_some _ _ _ h
    exact (hasPeer_true_iff id st).mpr ⟨p, hp.1, by simpa using hp.2⟩
  | none =>
    rw [getPeer_created h]
    apply (hasPeer_true_iff _ _).mpr
    exact ⟨mkPeer st.localStream id .undef, by simp, mkPeer_id _ _ _⟩

/-- The element directly behind a cons-prefix of an append sits at the index
equal to the prefix length. -/
theorem get_append_len {α : Type} :
    ∀ (pre : List α) (x : α) (l : List α), (pre ++ x :: l).get? pre.length = some x := by
  intro pre
  induction pre with
  | nil => intro x l; rfl
  | cons a pre ih => intro x l; simpa using ih x l

/-- Erasing at the index equal to the prefix length removes exactly the head
behind the prefix. -/
theorem eraseIdx_append_len {α : Type} :
    ∀ (pre : List α) (x : α) (l : List α), (pre ++ x :: l).eraseIdx pre.length = pre ++ l := by
  intro pre
  induction pre with
  | nil => intro x l; rfl
  | cons a pre ih => intro x l; simpa [List.eraseIdx] using ih x l

/-- Dropping one past the prefix length drops the prefix and one element of
the suffix. -/
theorem drop_append_len_succ {α : Type} :
    ∀ (pre : List α) (l : List α), (pre ++ l).drop (pre.length + 1) = l.drop 1 := by
  intro pre
  induction pre with
  | nil => intro l; rfl
  | cons a pre ih => intro l; simpa using ih l

/-- Dropping one more gives a sublist of the previous drop. -/
theorem drop_succ_sublist_drop {α : Type} :
    ∀ (arr : List α) (k : Nat), List.Sublist (arr.drop (k + 1)) (arr.drop k) := by
  intro arr
  induction arr with
  | nil => intro k; simp
  | cons a arr ih =>
    intro k
    cases k with
    | zero => simpa using List.sublist_cons_self a arr
    | succ n => simpa using ih n

/-- An element found by get? at index k is a member of the k-drop. -/
theorem mem_drop_of_get {α : Type} (arr : List α) (k : Nat) (x : α)
    (h : arr.get? k = some x) : x ∈ arr.drop k := by
  have h0 : (arr.drop k).get? 0 = some x := by
    simp only [List.get?_eq_getElem?, List.getElem?_drop, Nat.add_zero]
    simpa [List.get?_eq_getElem?] using h
  exact List.get?_mem h0

/-- The splice loop only ever removes elements: its result is a sublist of
the input array. -/
theorem spliceGo_sublist {α : Type} (m : α → Bool) :
    ∀ (fuel : Nat) (arr : List α) (k : Nat), List.Sublist (spliceGo m fuel arr k) arr := by
  intro fuel
  induction fuel with
  | zero => intro arr k; simp [spliceGo]
  | succ n ih =>
    intro arr k
    rw [spliceGo]
    cases h : arr.get? k with
    | none => exact ih arr (k + 1)
    | some x =>
      by_cases hm : m x
      · simp only [hm, if_true]
        exact (ih _ (k + 1)).trans (List.eraseIdx_sublist arr k)
      · simp only [hm, if_false]
        exact ih arr (k + 1)

/-- The splice loop leaves the array unchanged when nothing at or past the
cursor matches. -/
theorem spliceGo_no_match {α : Type} (m : α → Bool) :
    ∀ (fuel : Nat) (arr : List α) (k : Nat),
      (∀ x ∈ arr.drop k, m x = false) → spliceGo m fuel arr k = arr := by
  intro fuel
  induction fuel with
  | zero => intro arr k _; simp [spliceGo]
  | succ n ih =>
    intro arr k hno
    have hstep : ∀ x ∈ arr.drop (k + 1), m x = false := fun x hx =>
      hno x ((drop_succ_sublist_drop arr k).mem hx)
    rw [spliceGo]
    cases h : arr.get? k with
    | none => exact ih arr (k + 1) hstep
    | some x =>
      have hx : m x = false := hno x (mem_drop_of_get arr k x h)
      simp only [hx, if_false]
      exact ih arr (k + 1) hstep

/-- The splice loop started behind a visited prefix removes exactly the one
matching element when everything else fails the match. -/
theorem spliceGo_hit {α : Type} (m : α → Bool) :
    ∀ (l1 pre : List α) (x : α) (l2 : List α),
      (∀ y ∈ l1, m y = false) → m x = true → (∀ y ∈ l2, m y = false) →
      spliceGo m (l1.length + 1 + l2.length) (pre ++ l1 ++ x :: l2) pre.length =
        pre ++ l1 ++ l2 := by
  intro l1
  induction l1 with
  | nil =>
    intro pre x l2 h1 hx h2
    simp only [List.length_nil, List.append_nil, Nat.zero_add]
    rw [show 1 + l2.length = l2.length + 1 from Nat.add_comm 1 l2.length]
    rw [spliceGo, get_append_len pre x l2]
    simp only [hx, if_true]
    rw [eraseIdx_append_len pre x l2]
    apply spliceGo_no_match
    intro y hy
    rw [drop_append_len_succ pre l2] at hy
    exact h2 y ((List.drop_sublist 1 l2).mem hy)
  | cons a l1 ih =>
    intro pre x l2 h1 hx h2
    have harr : pre ++ (a :: l1) ++ x :: l2 = pre ++ a :: (l1 ++ x :: l2) := by simp
    rw [show (a :: l1).length + 1 + l2.length = (l1.length + 1 + l2.length) + 1 by
      simp [Nat.add_comm, Nat.add_assoc, Nat.add_left_comm]]
    rw [spliceGo, harr, get_append_len pre a (l1 ++ x :: l2)]
    have ha : m a = false := h1 a (List.mem_cons_self a l1)
    simp only [ha, if_false]
    have hpre : pre ++ a :: (l1 ++ x :: l2) = (pre ++ [a]) ++ l1 ++ x :: l2 := by simp
    have hlen : pre.length + 1 = (pre ++ [a]).length := by simp
    rw [hpre, hlen, ih (pre ++ [a]) x l2 (fun y hy => h1 y (List.mem_cons_of_mem a hy)) hx h2]
    simp

/-- The whole forEach-with-splice pass removes exactly the unique matching
element. -/
theorem spliceOut_removes {α : Type} (m : α → Bool) (l1 : List α) (x : α) (l2 : List α)
    (h1 : ∀ y ∈ l1, m y = false) (hx : m x = true) (h2 : ∀ y ∈ l2, m y = false) :
    spliceOut m (l1 ++ x :: l2) = l1 ++ l2 := by
  have h := spliceGo_hit m l1 [] x l2 h1 hx h2
  simp only [List.nil_append, List.length_nil] at h
  unfold spliceOut
  rw [show (l1 ++ x :: l2).length = l1.length + 1 + l2.length by
    simp [Nat.add_comm, Nat.add_assoc, Nat.add_left_comm]]
  exact h

/-- The whole forEach-with-splice pass is the identity when no element
matches. -/
theorem spliceOut_no_match {α : Type} (m : α → Bool) (arr : List α)
    (h : ∀ x ∈ arr, m x = false) : spliceOut m arr = arr := by
  unfold spliceOut
  exact spliceGo_no_match m arr.length arr 0 (by simpa using h)

/-- get? inside enumFrom pairs the element with its shifted index. -/
theorem enumFrom_get_eq {α : Type} :
    ∀ (l : List α) (k i : Nat),
      (l.enumFrom k).get? i = (l.get? i).map (fun a => (k + i, a)) := by
  intro l
  induction l with
  | nil => intro k i; simp
  | cons a l ih =>
    intro k i
    cases i with
    | zero => simp [List.enumFrom]
    | succ n =>
      simp only [List.enumFrom, List.get?]
      rw [ih (k + 1) n]
      cases l.get? n <;> simp [Nat.add_assoc, Nat.add_comm 1 n]

/-- Appending one fresh entry keeps the id list duplicate-free. -/
theorem nodup_tbl_append (tbl : List Peer) (p : Peer)
    (h : (tbl.map Peer.id).Nodup) (hnot : ∀ q ∈ tbl, q.id ≠ p.id) :
    ((tbl ++ [p]).map Peer.id).Nodup := by
  rw [List.map_append, List.nodup_append]
  refine ⟨h, by simp, ?_⟩
  intro a ha hb
  have hap : a = p.id := by simpa using hb
  obtain ⟨q, hq, hqa⟩ := List.mem_map.mp ha
  exact hnot q hq (hqa.trans hap)

/-- addPeer preserves duplicate-freedom of the id list. -/
theorem nodup_addPeer (id : String) (sup : JVal) (st : Client)
    (h : (st.peerConnections.map Peer.id).Nodup) :
    ((addPeer id sup st).1.peerConnections.map Peer.id).Nodup := by
  cases hh : hasPeer id st with
  | true => rw [addPeer_present sup hh]; exact h
  | false =>
    rw [addPeer_absent sup hh]
    refine nodup_tbl_append _ _ h ?_
    intro q hq
    rw [mkPeer_id]
    exact ((hasPeer_false_iff id st).mp hh) q hq

/-- getPeer preserves duplicate-freedom of the id list. -/
theorem nodup_getPeer (id : String) (st : Client)
    (h : (st.peerConnections.map Peer.id).Nodup) :
    (((getPeer id st).2.1).peerConnections.map Peer.id).Nodup := by
  rcases getPeer_state id st with heq | ⟨hf, heq⟩
  · rw [heq]; exact h
  · rw [heq]
    refine nodup_tbl_append _ _ h ?_
    intro q hq
    rw [mkPeer_id]
    exact ((hasPeer_false_iff id st).mp hf) q hq

/-- The generateConnections fold preserves duplicate-freedom of the id list. -/
theorem genFold_nodup :
    ∀ (l : List (Nat × String)) (st : Client) (acc : List Eff),
      (st.peerConnections.map Peer.id).Nodup →
      (((l.foldl genStep (st, acc)).1).peerConnections.map Peer.id).Nodup := by
  intro l
  induction l with
  | nil => intro st acc h; exact h
  | cons ip l ih =>
    intro st acc h
    simp only [List.foldl_cons]
    exact ih _ _ (nodup_addPeer ip.2 (.num ip.1) st h)

/-- spliceOut preserves duplicate-freedom of the id list. -/
theorem nodup_spliceOut (m : Peer → Bool) (tbl : List Peer)
    (h : (tbl.map Peer.id).Nodup) :
    (((spliceOut m tbl)).map Peer.id).Nodup :=
  h.sublist ((spliceGo_sublist m tbl.length tbl 0).map Peer.id)

/-- Running the generateConnections fold over fresh, duplicate-free ids
appends one constructed entry per list element, suppressed by its index. -/
theorem genFold_table :
    ∀ (ps : List String) (k : Nat) (st : Client) (acc : List Eff),
      ps.Nodup → (∀ p ∈ ps, hasPeer p st = false) →
      ((ps.enumFrom k).foldl genStep (st, acc)).1 =
        { st with peerConnections :=
            st.peerConnections ++
              (ps.enumFrom k).map (fun ip => mkPeer st.localStream ip.2 (.num ip.1)) } := by
  intro ps
  induction ps with
  | nil => intro k st acc _ _; simp [List.enumFrom]
  | cons p ps ih =>
    intro k st acc hnd hfresh
    have hp : hasPeer p st = false := hfresh p (List.mem_cons_self p ps)
    have hstep : genStep (st, acc) (k, p) =
        (({ st with peerConnections :=
              st.peerConnections ++ [mkPeer st.localStream p (.num k)] } : Client),
          acc ++ mkPeerEffs st.localStream p) := by
      simp [genStep, addPeer_absent (JVal.num k) hp]
    have hfresh1 : ∀ q ∈ ps,
        hasPeer q ({ st with peerConnections :=
            st.peerConnections ++ [mkPeer st.localStream p (.num k)] } : Client) = false := by
      intro q hq
      have hq1 : hasPeer q st = false := hfresh q (List.mem_cons_of_mem p hq)
      have hqp : p ≠ q := fun h => (List.nodup_cons.mp hnd).1 (h ▸ hq)
      rw [hasPeer_eq_any] at hq1 ⊢
      simp only [List.any_append, hq1, Bool.false_or, List.any_cons, List.any_nil,
        Bool.or_false]
      rw [mkPeer_id]
      simpa using hqp
    rw [show (p :: ps).enumFrom k = (k, p) :: ps.enumFrom (k + 1) from rfl]
    simp only [List.foldl_cons]
    rw [hstep, ih (k + 1) _ _ (List.nodup_cons.mp hnd).2 hfresh1]
    simp [List.append_assoc]

/-- The body of removeLocalStream accumulates the regenerated entries in
order. -/
theorem removeLS_fold (l : List Peer) :
    ∀ (a1 : List Peer) (a2 : List Eff),
      (l.foldl removeLSStep (a1, a2)).1 =
        a1 ++ l.map (fun peer => (regenPeer none peer (.bool true)).1) := by
  induction l with
  | nil => intro a1 a2; simp
  | cons p l ih =>
    intro a1 a2
    simp only [List.foldl_cons, removeLSStep, List.map_cons]
    rw [ih]
    simp

/-- removeLocalStream replaces every entry by its regeneration with suppress
driven by the old handle's remote streams. -/
theorem removeLocalStream_table (st : Client) :
    (removeLocalStream st).1.peerConnections =
      st.peerConnections.map (fun peer => (regenPeer none peer (.bool true)).1) := by
  show (st.peerConnections.foldl removeLSStep ([], [])).1 = _
  rw [removeLS_fold]
  simp

/-- Field values of a regenerated entry: same id, freshly constructed handle,
handlers re-bound with the recomputed suppress value. -/
theorem regenPeer_fields (ls : Option Nat) (p : Peer) (sup : JVal) :
    (regenPeer ls p sup).1.id = p.id ∧
    (regenPeer ls p sup).1.connection.handlers =
      some ⟨p.id, (jand sup (JVal.num p.connection.remoteStreams)).truthy⟩ ∧
    (regenPeer ls p sup).1.connection.remoteStreams = 0 := by
  cases ls <;> simp [regenPeer, bindConnectionEvents, addStreamToPeer, newPeerConnection]

/-- A local-removal-driven regeneration with a remote stream present binds the
fresh handle suppressed. -/
theorem regenPeer_suppressed (p : Peer) (hr : p.connection.remoteStreams ≠ 0) :
    (regenPeer none p (.bool true)).1.connection.handlers = some ⟨p.id, true⟩ ∧
    (regenPeer none p (.bool true)).1.id = p.id := by
  have h := regenPeer_fields none p (.bool true)
  refine ⟨?_, h.1⟩
  rw [h.2.1]
  have : (jand (JVal.bool true) (JVal.num p.connection.remoteStreams)).truthy = true := by
    simp [jand, JVal.truthy, hr]
  rw [this]

/-- Folding the conditional push computes the filtered id list after the
accumulator. -/
theorem foldl_push_filter (x : String) :
    ∀ (cs : List RClient) (acc : List String),
      cs.foldl (fun ids c => if c.id ≠ x then ids ++ [c.id] else ids) acc =
        acc ++ ((cs.map RClient.id).filter (fun i => i != x)) := by
  intro cs
  induction cs with
  | nil => intro acc; simp
  | cons c cs ih =>
    intro acc
    simp only [List.foldl_cons]
    by_cases h : c.id = x
    · rw [if_neg (not_not_intro h), ih, List.map_cons, List.filter_cons]
      simp [h]
    · rw [if_pos h, ih, List.map_cons, List.filter_cons]
      simp [h, List.append_assoc]

/-- findSocket misses when no client carries the target id. -/
theorem findSocket_eq_none (target : String) (clients : List RClient)
    (h : ∀ c ∈ clients, c.id ≠ target) : findSocket target clients = none := by
  unfold findSocket
  rw [lastHit_eq_none_iff]
  intro c hc
  simpa using h c hc

/-- Claim C5: for every room membership state and every member x, getUserIds
returns exactly the identifiers of the room's members minus x, in join
order. -/
theorem getUserIds_join_order_minus_self (x : String) (cs : List RClient) :
    getUserIds x cs = (cs.map RClient.id).filter (fun i => i != x) ∧
    ∀ y, (y ∈ getUserIds x cs ↔ y ∈ cs.map RClient.id ∧ y ≠ x) := by
  have h : getUserIds x cs = (cs.map RClient.id).filter (fun i => i != x) := by
    have hh := foldl_push_filter x cs []
    simpa [getUserIds] using hh
  refine ⟨h, ?_⟩
  intro y
  rw [h, List.mem_filter]
  simp

/-- Claim C6: a routed message whose target does not resolve in the registry
is dropped: the relay delivers nothing, replies nothing, and its client list
is returned unchanged, for each of offer, answer, icecandidate,
peerconnected and streamremoved. -/
theorem routing_miss_noop (clients : List RClient) (target : String)
    (h : ∀ c ∈ clients, c.id ≠ target) :
    (∀ sender offer, onOffer sender target offer clients = (clients, [])) ∧
    (∀ sender answer, onAnswer sender target answer clients = (clients, [])) ∧
    (∀ sender cand, onIce sender target cand clients = (clients, [])) ∧
    (∀ sender, onPeerconnected sender target clients = (clients, [])) ∧
    (∀ sender, onStreamremoved sender target clients = (clients, [])) := by
  have hf := findSocket_eq_none target clients h
  exact ⟨fun s o => by simp [onOffer, hf], fun s a => by simp [onAnswer, hf],
    fun s c => by simp [onIce, hf], fun s => by simp [onPeerconnected, hf],
    fun s => by simp [onStreamremoved, hf]⟩

/-- Witness for claim C6 at a concrete registry and a missing target. -/
theorem routing_miss_noop_witness :
    onOffer "s" "z" 0 [⟨"a"⟩] = ([⟨"a"⟩], []) ∧
    onStreamremoved "s" "z" [⟨"a"⟩] = ([⟨"a"⟩], []) := by
  have h := routing_miss_noop [⟨"a"⟩] "z" (by decide)
  exact ⟨h.1 "s" 0, h.2.2.2.2 "s"⟩

/-- Claim C9: the relay stores no negotiation payloads: the list, offer,
answer, icecandidate, peerconnected and streamremoved handlers all return the
client list unchanged, while a new connection appends to it and a channel
close runs removeUser on it. -/
theorem relay_stateless_routing (clients : List RClient) (sender target pid : String)
    (offer answer cand : Nat) (c : RClient) :
    (onList sender clients).1 = clients ∧
    (onOffer sender target offer clients).1 = clients ∧
    (onAnswer sender target answer clients).1 = clients ∧
    (onIce sender target cand clients).1 = clients ∧
    (onPeerconnected sender pid clients).1 = clients ∧
    (onStreamremoved sender target clients).1 = clients ∧
    onConnection c clients = clients ++ [c] ∧
    onDisconnect sender clients = removeUser sender clients := by
  refine ⟨rfl, ?_, ?_, ?_, ?_, ?_, rfl, rfl⟩
  · unfold onOffer; cases findSocket target clients <;> rfl
  · unfold onAnswer; cases findSocket target clients <;> rfl
  · unfold onIce; cases findSocket target clients <;> rfl
  · unfold onPeerconnected; cases findSocket pid clients <;> rfl
  · unfold onStreamremoved; cases findSocket target clients <;> rfl

/-- Counterexample to claim C2: the registry join is a plain push, so joining
the same identifier twice leaves two entries for it, not one. -/
theorem join_not_idempotent_counterexample :
    onConnection ⟨"a"⟩ (onConnection ⟨"a"⟩ []) = [⟨"a"⟩, ⟨"a"⟩] ∧
    ((onConnection ⟨"a"⟩ (onConnection ⟨"a"⟩ [])).filter (fun c => c.id == "a")).length ≠ 1 := by
  exact ⟨rfl, by decide⟩

/-- Claim C2 as amended: join appends the channel unconditionally, so joining
the same identifier twice adds exactly two entries for that identifier. -/
theorem join_appends_unconditionally (c : RClient) (cs : List RClient) :
    onConnection c (onConnection c cs) = cs ++ [c, c] ∧
    ((onConnection c (onConnection c cs)).filter (fun x => x.id == c.id)).length =
      (cs.filter (fun x => x.id == c.id)).length + 2 := by
  constructor
  · simp [onConnection]
  · simp [onConnection, List.filter_append]

/-- Counterexample to claim C1: with an empty peer table and no offer ever
sent, a received answer is not treated as a no-op: handleAnswer creates an
entry for the sender and applies the answer as a remote description. -/
theorem handleAnswer_not_noop_without_offer :
    (handleAnswer "p" 7 initClient).1 ≠ initClient ∧
    Eff.setRemoteDescription "p" 7 ∈ (handleAnswer "p" 7 initClient).2 ∧
    hasPeer "p" (handleAnswer "p" 7 initClient).1 = true := by
  exact ⟨by decide, by decide, by decide⟩

/-- Claim C1 as amended: handleAnswer applies every received answer
unconditionally: it obtains the sender's entry via getPeer (creating it when
absent), sets the remote description, and emits the peerconnected event, with
no outstanding-offer or duplicate check. -/
theorem handleAnswer_always_applies (sender : String) (answer : Nat) (st : Client) :
    Eff.setRemoteDescription sender answer ∈ (handleAnswer sender answer st).2 ∧
    Eff.peerConnectedEv sender ∈ (handleAnswer sender answer st).2 ∧
    hasPeer sender (handleAnswer sender answer st).1 = true := by
  have hid := getPeer_id sender st
  have h1 : (handleAnswer sender answer st).2 =
      (getPeer sender st).2.2 ++
        [Eff.setRemoteDescription sender answer, Eff.peerConnectedEv sender,
          Eff.sockPeerConnected sender] := by
    simp [handleAnswer, hid]
  have h2 : (handleAnswer sender answer st).1 = (getPeer sender st).2.1 := rfl
  refine ⟨?_, ?_, ?_⟩
  · rw [h1]; simp
  · rw [h1]; simp
  · rw [h2]; exact hasPeer_getPeer sender st

/-- Counterexample to claim C3: after a local stream removal with a remote
stream present, every remote-stream-added signal on the regenerated handle is
swallowed: both the first and any subsequent firing deliver nothing, so no
subsequent signal reaches application code. -/
theorem suppressed_handle_swallows_all_counterexample :
    ((removeLocalStream cSt).1.peerConnections.map (fun q => fireAddStream 3 q)) = [[]] ∧
    ((removeLocalStream cSt).1.peerConnections.map (fun q => fireAddStream 4 q)) = [[]] ∧
    (∀ q ∈ (removeLocalStream cSt).1.peerConnections,
      fireAddStream 4 q ≠ [Eff.remoteStreamAdded 4 q.id]) := by
  exact ⟨by decide, by decide, by decide⟩

/-- Claim C3 as amended: when a replacement is driven by local stream removal
while a remote stream is still present, the suppress value is computed from
the old handle before the replacement and bound into the fresh handle, and
every remote-stream-added signal fired by that handle is swallowed, not just
the first. -/
theorem removeLocalStream_suppression_permanent (st : Client) (s0 : Nat)
    (hls : st.localStream = some s0) (p : Peer) (hp : p ∈ st.peerConnections)
    (hr : p.connection.remoteStreams ≠ 0) :
    ∃ q, q ∈ (removeLocalStream st).1.peerConnections ∧ q.id = p.id ∧
      q.connection.handlers = some ⟨p.id, true⟩ ∧ ∀ s, fireAddStream s q = [] := by
  refine ⟨(regenPeer none p (.bool true)).1, ?_, (regenPeer_suppressed p hr).2,
    (regenPeer_suppressed p hr).1, ?_⟩
  · rw [removeLocalStream_table]
    exact List.mem_map_of_mem _ hp
  · intro s
    have h := (regenPeer_suppressed p hr).1
    simp [fireAddStream, h]

/-- Witness for amended claim C3 at the concrete broadcasting client. -/
theorem removeLocalStream_suppression_permanent_witness :
    ∃ q, q ∈ (removeLocalStream cSt).1.peerConnections ∧ q.id = "b" ∧
      q.connection.handlers = some ⟨"b", true⟩ ∧ ∀ s, fireAddStream s q = [] :=
  removeLocalStream_suppression_permanent cSt 5 rfl cPeerB (by decide) (by decide)

/-- Claim C8: regenStream replaces the entry's connection handle wholesale by
a freshly constructed bound handle, keeps the entry's id, keeps the entry at
its position in the table, leaves every other entry untouched, and re-binds
the handlers with the entry's id and the recomputed suppress value. -/
theorem regenStream_wholesale_replacement (tbl : List Peer) (j : Nat) (hj : j < tbl.length)
    (ls : Option Nat) (sup : JVal) :
    ∃ p, tbl.get? j = some p ∧
      (regenStreamTable ls sup tbl j).1 = tbl.set j (regenPeer ls p sup).1 ∧
      (regenPeer ls p sup).1.id = p.id ∧
      (regenPeer ls p sup).1.connection.handlers =
        some ⟨p.id, (jand sup (JVal.num p.connection.remoteStreams)).truthy⟩ ∧
      (regenPeer ls p sup).1.connection.remoteStreams = 0 ∧
      (regenStreamTable ls sup tbl j).1.length = tbl.length ∧
      (regenStreamTable ls sup tbl j).1.get? j = some (regenPeer ls p sup).1 ∧
      (∀ i, i ≠ j → (regenStreamTable ls sup tbl j).1.get? i = tbl.get? i) := by
  have hget : tbl.get? j = some (tbl.get ⟨j, hj⟩) := by
    simp [List.get?_eq_getElem?, List.getElem?_eq_getElem hj, List.get_eq_getElem]
  have htab : (regenStreamTable ls sup tbl j).1 =
      tbl.set j (regenPeer ls (tbl.get ⟨j, hj⟩) sup).1 := by
    have hget2 : tbl[j]? = some (tbl.get ⟨j, hj⟩) := by
      simpa [List.get?_eq_getElem?] using hget
    simp [regenStreamTable, hget2]
  have hf := regenPeer_fields ls (tbl.get ⟨j, hj⟩) sup
  refine ⟨tbl.get ⟨j, hj⟩, hget, htab, hf.1, hf.2.1, hf.2.2, ?_, ?_, ?_⟩
  · rw [htab]; simp
  · rw [htab]
    simp [List.get?_eq_getElem?, List.getElem?_set_eq_of_lt _ (by simpa using hj)]
  · intro i hi
    rw [htab]
    simp [List.get?_eq_getElem?, List.getElem?_set_ne (Ne.symm hi)]

/-- Witness for claim C8 at a concrete one-entry table. -/
theorem regenStream_wholesale_replacement_witness :
    ∃ p, [cPeerB].get? 0 = some p ∧
      (regenStreamTable none JVal.undef [cPeerB] 0).1 =
        [cPeerB].set 0 (regenPeer none p JVal.undef).1 ∧
      (regenPeer none p JVal.undef).1.id = p.id ∧
      (regenPeer none p JVal.undef).1.connection.handlers =
        some ⟨p.id, (jand JVal.undef (JVal.num p.connection.remoteStreams)).truthy⟩ ∧
      (regenPeer none p JVal.undef).1.connection.remoteStreams = 0 ∧
      (regenStreamTable none JVal.undef [cPeerB] 0).1.length = [cPeerB].length ∧
      (regenStreamTable none JVal.undef [cPeerB] 0).1.get? 0 =
        some (regenPeer none p JVal.undef).1 ∧
      (∀ i, i ≠ 0 → (regenStreamTable none JVal.undef [cPeerB] 0).1.get? i =
        [cPeerB].get? i) :=
  regenStream_wholesale_replacement [cPeerB] 0 (by decide) none JVal.undef

/-- Under a duplicate-free id list, a present id splits the table into the
unique matching entry and non-matching surroundings. -/
theorem exists_decomp_of_hasPeer (id : String) (st : Client)
    (h : hasPeer id st = true) (hnd : (st.peerConnections.map Peer.id).Nodup) :
    ∃ l1 p l2, st.peerConnections = l1 ++ p :: l2 ∧ p.id = id ∧
      (∀ y ∈ l1, y.id ≠ id) ∧ (∀ y ∈ l2, y.id ≠ id) := by
  obtain ⟨p, hp, hpid⟩ := (hasPeer_true_iff id st).mp h
  obtain ⟨l1, l2, heq⟩ := List.append_of_mem hp
  have hnd2 : ((l1 ++ p :: l2).map Peer.id).Nodup := heq ▸ hnd
  rw [List.map_append, List.map_cons] at hnd2
  have hmid := (List.nodup_middle).mp hnd2
  have hnotin : p.id ∉ (l1.map Peer.id ++ l2.map Peer.id) := (List.nodup_cons.mp hmid).1
  refine ⟨l1, p, l2, heq, hpid, ?_, ?_⟩
  · intro y hy hyid
    exact hnotin (List.mem_append_left _ (List.mem_map.mpr ⟨y, hy, hyid.trans hpid.symm⟩))
  · intro y hy hyid
    exact hnotin (List.mem_append_right _ (List.mem_map.mpr ⟨y, hy, hyid.trans hpid.symm⟩))

/-- Claim C7: at most one entry exists per remote id, and this invariant is
preserved by addPeer, getPeer, generateConnections, createAnswer,
handleAnswer, receiveIceCandidate and disconnectConnection. -/
theorem peer_table_uniqueness (st : Client)
    (h : (st.peerConnections.map Peer.id).Nodup) :
    (∀ id sup, ((addPeer id sup st).1.peerConnections.map Peer.id).Nodup) ∧
    (∀ id, (((getPeer id st).2.1).peerConnections.map Peer.id).Nodup) ∧
    (∀ ps, ((generateConnections ps st).1.peerConnections.map Peer.id).Nodup) ∧
    (∀ sender offer, ((createAnswer sender offer st).1.peerConnections.map Peer.id).Nodup) ∧
    (∀ sender answer, ((handleAnswer sender answer st).1.peerConnections.map Peer.id).Nodup) ∧
    (∀ sender cand, ((receiveIceCandidate sender cand st).1.peerConnections.map Peer.id).Nodup) ∧
    (∀ id, ((disconnectConnection id st).1.peerConnections.map Peer.id).Nodup) := by
  refine ⟨fun id sup => nodup_addPeer id sup st h,
    fun id => nodup_getPeer id st h,
    fun ps => genFold_nodup ps.enum st [] h,
    fun sender offer => nodup_getPeer sender st h,
    fun sender answer => nodup_getPeer sender st h,
    fun sender cand => ?_,
    fun id => ?_⟩
  · cases cand with
    | none => exact h
    | some outer =>
      cases houter : outer.candidate with
      | none => simpa [receiveIceCandidate, houter] using h
      | some inner =>
        by_cases hc : inner.candidate = ""
        · simpa [receiveIceCandidate, houter, hc] using h
        · have heq : (receiveIceCandidate sender (some outer) st).1 = (getPeer sender st).2.1 := by
            simp [receiveIceCandidate, houter, hc]
          rw [heq]
          exact nodup_getPeer sender st h
  · have heq : (disconnectConnection id st).1.peerConnections =
        spliceOut (fun peer => peer.id == id) ((getPeer id st).2.1).peerConnections := rfl
    rw [heq]
    exact nodup_spliceOut _ _ (nodup_getPeer id st h)

/-- Witness for claim C7 at the empty client. -/
theorem peer_table_uniqueness_witness :
    ((addPeer "a" JVal.undef initClient).1.peerConnections.map Peer.id).Nodup ∧
    ((disconnectConnection "a" initClient).1.peerConnections.map Peer.id).Nodup := by
  have h := peer_table_uniqueness initClient (by decide)
  exact ⟨h.1 "a" JVal.undef, h.2.2.2.2.2.2 "a"⟩

/-- Claim C10: after disconnectConnection(id) the table has no entry for id,
peerDisconnected(id) and remoteStreamRemoved(id) are each emitted exactly
once, and when no entry existed beforehand while a local stream is present,
the freshly created entry gets the stream attached and an offer is sent to
the already-disconnected peer before it is closed and removed. -/
theorem disconnectConnection_removes_and_emits (id : String) (st : Client)
    (hnd : (st.peerConnections.map Peer.id).Nodup) :
    hasPeer id (disconnectConnection id st).1 = false ∧
    List.count (Eff.peerDisconnected id) (disconnectConnection id st).2 = 1 ∧
    List.count (Eff.remoteStreamRemovedEv id) (disconnectConnection id st).2 = 1 ∧
    (∀ s, hasPeer id st = false → st.localStream = some s →
      Eff.addStreamEff s id ∈ (disconnectConnection id st).2 ∧
      Eff.sockOffer id ∈ (disconnectConnection id st).2) := by
  cases hlh : lastHit (fun peer => peer.id == id) st.peerConnections with
  | some p =>
    have hgp := getPeer_found hlh
    have hsp := lastHit_some _ _ _ hlh
    have hpid : p.id = id := by simpa using hsp.2
    have htrue : hasPeer id st = true := (hasPeer_true_iff id st).mpr ⟨p, hsp.1, hpid⟩
    have hst : (disconnectConnection id st).1.peerConnections =
        spliceOut (fun peer => peer.id == id) st.peerConnections := by
      simp [disconnectConnection, hgp]
    have heff : (disconnectConnection id st).2 =
        [Eff.closeConnection p.id, Eff.peerDisconnected id, Eff.remoteStreamRemovedEv id] := by
      simp [disconnectConnection, hgp]
    obtain ⟨l1, q, l2, heq, hqid, h1, h2⟩ := exists_decomp_of_hasPeer id st htrue hnd
    have hsplice : spliceOut (fun peer => peer.id == id) st.peerConnections = l1 ++ l2 := by
      rw [heq]
      apply spliceOut_removes
      · intro y hy; simpa using h1 y hy
      · simpa using hqid
      · intro y hy; simpa using h2 y hy
    refine ⟨?_, ?_, ?_, ?_⟩
    · apply (hasPeer_false_iff _ _).mpr
      intro r hr
      rw [hst, hsplice] at hr
      rcases List.mem_append.mp hr with hm | hm
      · exact h1 r hm
      · exact h2 r hm
    · rw [heff]; simp [List.count_cons]
    · rw [heff]; simp [List.count_cons]
    · intro s hfalse _
      rw [htrue] at hfalse
      cases hfalse
  | none =>
    have hgp := getPeer_created hlh
    have hfalse : hasPeer id st = false := (lastHit_peer_none_iff id st).mp hlh
    have hst : (disconnectConnection id st).1.peerConnections =
        spliceOut (fun peer => peer.id == id)
          (st.peerConnections ++ [mkPeer st.localStream id .undef]) := by
      simp [disconnectConnection, hgp]
    have heff : (disconnectConnection id st).2 =
        mkPeerEffs st.localStream id ++
          [Eff.closeConnection id, Eff.peerDisconnected id, Eff.remoteStreamRemovedEv id] := by
      simp [disconnectConnection, hgp, mkPeer_id]
    have hsplice : spliceOut (fun peer => peer.id == id)
        (st.peerConnections ++ [mkPeer st.localStream id .undef]) = st.peerConnections := by
      have hh := spliceOut_removes (fun peer => peer.id == id) st.peerConnections
        (mkPeer st.localStream id .undef) []
        (fun y hy => by simpa using (hasPeer_false_iff id st).mp hfalse y hy)
        (by simp [mkPeer_id])
        (fun y hy => absurd hy (List.not_mem_nil y))
      simpa using hh
    refine ⟨?_, ?_, ?_, ?_⟩
    · apply (hasPeer_false_iff _ _).mpr
      intro r hr
      rw [hst, hsplice] at hr
      exact (hasPeer_false_iff id st).mp hfalse r hr
    · rw [heff, List.count_append]
      have h0 : List.count (Eff.peerDisconnected id) (mkPeerEffs st.localStream id) = 0 := by
        cases st.localStream <;> simp [mkPeerEffs]
      rw [h0]
      simp [List.count_cons]
    · rw [heff, List.count_append]
      have h0 : List.count (Eff.remoteStreamRemovedEv id) (mkPeerEffs st.localStream id) = 0 := by
        cases st.localStream <;> simp [mkPeerEffs]
      rw [h0]
      simp [List.count_cons]
    · intro s _ hls
      rw [heff, hls]
      constructor <;> simp [mkPeerEffs]

/-- Witness for claim C10 at a client with an empty table and an active local
stream, disconnecting a peer that was never added. -/
theorem disconnectConnection_removes_and_emits_witness :
    hasPeer "p" (disconnectConnection "p" cSt2).1 = false ∧
    List.count (Eff.peerDisconnected "p") (disconnectConnection "p" cSt2).2 = 1 ∧
    List.count (Eff.remoteStreamRemovedEv "p") (disconnectConnection "p" cSt2).2 = 1 ∧
    (∀ s, hasPeer "p" cSt2 = false → cSt2.localStream = some s →
      Eff.addStreamEff s "p" ∈ (disconnectConnection "p" cSt2).2 ∧
      Eff.sockOffer "p" ∈ (disconnectConnection "p" cSt2).2) :=
  disconnectConnection_removes_and_emits "p" cSt2 (by decide)

/-- Claim C4: generateConnections feeds each list index into addPeer's
suppress parameter through forEach, so on any fresh duplicate-free list of
length at least two every peer at position one or later is bound suppressed
(its initially-bound handle never emits remoteStreamAdded) while the peer at
position zero is bound unsuppressed. -/
theorem generateConnections_index_suppression (ps : List String) (st : Client)
    (hnd : ps.Nodup) (hfresh : ∀ p ∈ ps, hasPeer p st = false) (hlen : 2 ≤ ps.length) :
    ∀ i, ∀ hi : i < ps.length,
      ∃ peer, peer ∈ (generateConnections ps st).1.peerConnections ∧
        peer.id = ps.get ⟨i, hi⟩ ∧
        peer.connection.handlers = some ⟨ps.get ⟨i, hi⟩, i != 0⟩ ∧
        (1 ≤ i → ∀ s, fireAddStream s peer = []) ∧
        (i = 0 → ∀ s, fireAddStream s peer = [Eff.remoteStreamAdded s (ps.get ⟨i, hi⟩)]) := by
  intro i hi
  have htbl : (generateConnections ps st).1.peerConnections =
      st.peerConnections ++
        (ps.enumFrom 0).map (fun ip => mkPeer st.localStream ip.2 (.num ip.1)) := by
    have hg := genFold_table ps 0 st [] hnd hfresh
    calc (generateConnections ps st).1.peerConnections
        = ((ps.enumFrom 0).foldl genStep (st, [])).1.peerConnections := rfl
      _ = _ := by rw [hg]
  refine ⟨mkPeer st.localStream (ps.get ⟨i, hi⟩) (.num i), ?_, mkPeer_id _ _ _, ?_, ?_, ?_⟩
  · rw [htbl]
    apply List.mem_append_right
    have hg : (ps.enumFrom 0).get? i = some (0 + i, ps.get ⟨i, hi⟩) := by
      rw [enumFrom_get_eq]
      simp [List.get?_eq_getElem?, List.getElem?_eq_getElem hi, List.get_eq_getElem]
    have hmem := List.get?_mem hg
    simpa using
      List.mem_map_of_mem (fun ip => mkPeer st.localStream ip.2 (JVal.num ip.1)) hmem
  · have hh := mkPeer_handlers st.localStream (ps.get ⟨i, hi⟩) (.num i)
    simpa [JVal.truthy] using hh
  · intro h1 s
    have hi0 : i ≠ 0 := Nat.one_le_iff_ne_zero.mp h1
    have hh := mkPeer_handlers st.localStream ps[i] (.num i)
    have hs : (JVal.num i).truthy = true := by simp [JVal.truthy, hi0]
    simp [fireAddStream, hh, hs]
  · intro h0 s
    subst h0
    have hh := mkPeer_handlers st.localStream ps[0] (.num 0)
    simp [fireAddStream, hh, JVal.truthy]

/-- Witness for claim C4 on the concrete two-element list: the peer at index
one is bound suppressed and its handle emits nothing. -/
theorem generateConnections_index_suppression_witness :
    ∃ peer, peer ∈ (generateConnections ["a", "b"] initClient).1.peerConnections ∧
      peer.id = "b" ∧
      peer.connection.handlers = some ⟨"b", true⟩ ∧
      (∀ s, fireAddStream s peer = []) := by
  have h := generateConnections_index_suppression ["a", "b"] initClient (by decide)
    (fun p _ => rfl) (by decide) 1 (by decide)
  obtain ⟨peer, hmem, hid, hh, hsup, _⟩ := h
  exact ⟨peer, hmem, hid, by simpa using hh, hsup (by decide)⟩
